import Mathlib

/-!
Verification of the WAF IP-set bounded-batch differ and related operations
from the terraform-provider-aws sources.

The Go sources embedded here:
  - internal/service/waf resource for IP sets:
    constant ipSetUpdatesLimit, functions DiffIPSetDescriptors and
    updateIPSetDescriptors.
  - internal/service/transfer user resource: function userDelete.

IP-set descriptors are Go maps holding exactly the two string fields
"type" and "value"; they are embedded as a two-field structure, and the
structural map equality used by sliceContainsMap becomes decidable
equality of that structure.
-/

set_option autoImplicit false

namespace waf

/-- One IP-set descriptor record: the `{type, value}` pair carried by the
`map[string]interface{}` descriptors and by `waf.IPSetDescriptor`. -/
structure IPSetDescriptor where
  ty : String
  value : String
deriving DecidableEq, Repr

/-- The WAF change action of one update: `waf.ChangeActionDelete` or
`waf.ChangeActionInsert`. -/
inductive ChangeAction where
  | delete
  | insert
deriving DecidableEq, Repr

/-- One `waf.IPSetUpdate`: an action applied to a descriptor. -/
structure IPSetUpdate where
  action : ChangeAction
  descriptor : IPSetDescriptor
deriving DecidableEq, Repr

/-- Source constant `ipSetUpdatesLimit = 1000` — WAF requires UpdateIPSet operations
be split into batches of 1000 updates. -/
def ipSetUpdatesLimit : Nat := 1000

/-- Modelled from the spec: the helper `sliceContainsMap` is called by
`DiffIPSetDescriptors` but its definition is not among the given sources.
The spec describes it as a first-available structural match: it scans the
slice in order and reports the index of the first element structurally
equal to the probe, if any (remove-on-first-match, no global
deduplication). `none` plays the role of the Go `(-1, false)` result. -/
def sliceContainsMap (l : List IPSetDescriptor) (m : IPSetDescriptor) : Option Nat :=
  match l with
  | [] => none
  | x :: xs => if x = m then some 0 else (sliceContainsMap xs m).map (fun i => i + 1)

/-- The mutable loop state of `DiffIPSetDescriptors`: the completed
batches `updatesBatches` and the running batch `updates`. -/
abbrev DiffState := List (List IPSetUpdate) × List IPSetUpdate

/-- Appending one update to the running batch, with the rollover rule of
the source: `if len(updates) == limit { push updates; updates = fresh }`
before the append. The limit is the parameter `n`. -/
def pushOp (n : Nat) (st : DiffState) (op : IPSetUpdate) : DiffState :=
  if st.2.length = n then (st.1 ++ [st.2], [op]) else (st.1, st.2 ++ [op])

/-- The first loop of `DiffIPSetDescriptors`: for each old descriptor, if
`sliceContainsMap` finds a structurally equal descriptor in the working
copy of `newD`, that one occurrence is removed (`newD = append(newD[:idx],
newD[idx+1:]...)`) and no operation is emitted; otherwise a Delete update
is appended via the rollover rule. Returns the remaining working copy of
`newD` together with the updated batch state. -/
def oldPass (n : Nat) : List IPSetDescriptor → List IPSetDescriptor → DiffState →
    List IPSetDescriptor × DiffState
  | [], newD, st => (newD, st)
  | od :: rest, newD, st =>
    match sliceContainsMap newD od with
    | some idx => oldPass n rest (newD.eraseIdx idx) st
    | none => oldPass n rest newD (pushOp n st ⟨ChangeAction.delete, od⟩)

/-- The second loop of `DiffIPSetDescriptors`: each descriptor remaining
in the working copy of `newD` becomes an Insert update, with the same
rollover rule. -/
def newPass (n : Nat) : List IPSetDescriptor → DiffState → DiffState
  | [], st => st
  | nd :: rest, st => newPass n rest (pushOp n st ⟨ChangeAction.insert, nd⟩)

/-- Generalization of `DiffIPSetDescriptors` with the batch limit as an explicit parameter
`n` (the source fixes it to the constant `ipSetUpdatesLimit`). After both
loops the running batch is appended unconditionally, even when empty. -/
def diffAux (n : Nat) (oldD newD : List IPSetDescriptor) : List (List IPSetUpdate) :=
  let r := oldPass n oldD newD ([], [])
  let st := newPass n r.1 r.2
  st.1 ++ [st.2]

/-- Embedding of `func DiffIPSetDescriptors(oldD, newD []interface{}) [][]*waf.IPSetUpdate`. -/
def DiffIPSetDescriptors (oldD newD : List IPSetDescriptor) : List (List IPSetUpdate) :=
  diffAux ipSetUpdatesLimit oldD newD

/-! ### Proof infrastructure: the flattened operation stream

The batching state flattens to a single operation list; `oldPassOps` is a
batching-free rendering of the first loop used to reason about the stream
of emitted operations independently of the rollover rule. -/

/-- All operations held by a batching state, completed batches first. -/
def joinSt (st : DiffState) : List IPSetUpdate :=
  st.1.flatten ++ st.2

/-- Batching-free rendering of the first loop: the remaining working copy
of the new list together with the Delete operations emitted, in order. -/
def oldPassOps : List IPSetDescriptor → List IPSetDescriptor →
    List IPSetDescriptor × List IPSetUpdate
  | [], newD => (newD, [])
  | od :: rest, newD =>
    match sliceContainsMap newD od with
    | some idx => oldPassOps rest (newD.eraseIdx idx)
    | none =>
      let r := oldPassOps rest newD
      (r.1, ⟨ChangeAction.delete, od⟩ :: r.2)

/-! ### The batching invariant -/

/-- The final batching state of one diff call. -/
def finalSt (n : Nat) (oldD newD : List IPSetDescriptor) : DiffState :=
  let r := oldPass n oldD newD ([], [])
  newPass n r.1 r.2

/-- Invariant of the batching state: every completed batch holds exactly
`n` operations, the running batch holds at most `n`, and the running
batch is empty only when nothing has ever been pushed. -/
def BatchInv (n : Nat) (st : DiffState) : Prop :=
  (∀ b ∈ st.1, b.length = n) ∧ st.2.length ≤ n ∧ (st.2 = [] → st.1 = [])

/-! ### Length-level simulation of the batching state

Evaluating the differ on thousand-record inputs directly is infeasible in
proofs, so the rollover behaviour is mirrored on batch lengths alone. -/

/-- The batch lengths of a state: completed batch lengths and the running
batch length. -/
def lenSt (st : DiffState) : List Nat × Nat :=
  (st.1.map List.length, st.2.length)

/-- Action of `pushOp` on batch lengths. -/
def pushLen (n : Nat) (p : List Nat × Nat) : List Nat × Nat :=
  if p.2 = n then (p.1 ++ [p.2], 1) else (p.1, p.2 + 1)

/-- Iterated application of `pushLen`, `k` times. -/
def iterPushLen (n : Nat) : Nat → List Nat × Nat → List Nat × Nat
  | 0, p => p
  | k + 1, p => iterPushLen n k (pushLen n p)

/-- A descriptor family with provably pairwise distinct values. -/
def exampleRecord (k : Nat) : IPSetDescriptor :=
  ⟨"IPV4", String.mk (List.replicate k 'a')⟩

/-- The 2500 distinct records of the spec example for the batch count. -/
def example2500 : List IPSetDescriptor :=
  (List.range 2500).map exampleRecord

/-- A list of 1000 distinct records: a total that is an exact positive multiple of
the batch limit. -/
def example1000 : List IPSetDescriptor :=
  (List.range 1000).map exampleRecord

/-! ### Sequential execution of the batches -/

/-- One traced run of the batch loop of `updateIPSetDescriptors`. The
remote `UpdateIPSet` call (through the change-token retryer) is the
oracle `exec`; `some e` is a non-nil Go error. Returns the batches
submitted in order, the batches applied remotely (submitted and
succeeded), and the first error — `none` when every batch succeeded. -/
def runBatches {E : Type} (exec : List IPSetUpdate → Option E) :
    List (List IPSetUpdate) →
      List (List IPSetUpdate) × List (List IPSetUpdate) × Option E
  | [] => ([], [], none)
  | b :: rest =>
    match exec b with
    | some e => ([b], [], some e)
    | none =>
      let r := runBatches exec rest
      (b :: r.1, b :: r.2.1, r.2.2)

/-- Embedding of `func updateIPSetDescriptors(ctx, id, oldD, newD, conn) error`:
iterates the batches of `DiffIPSetDescriptors(oldD, newD)` in order, one
remote call per batch, and returns on the first failed batch. -/
def updateIPSetDescriptors {E : Type} (exec : List IPSetUpdate → Option E)
    (oldD newD : List IPSetDescriptor) :
    List (List IPSetUpdate) × List (List IPSetUpdate) × Option E :=
  runBatches exec (DiffIPSetDescriptors oldD newD)

end waf

namespace transfer

/-- An AWS SDK error, reduced to its error code — the part examined by
`tfawserr.ErrCodeEquals`. -/
structure AwsErr where
  code : String
deriving DecidableEq, Repr

/-- Embedding of `tfawserr.ErrCodeEquals(err, code)`: true iff the error is non-nil
and carries the given code. -/
def errCodeEquals (e : Option AwsErr) (c : String) : Bool :=
  match e with
  | some a => a.code == c
  | none => false

/-- The code string `transfer.ErrCodeResourceNotFoundException`. -/
def errCodeResourceNotFoundException : String := "ResourceNotFoundException"

/-- The non-nil results of `userDelete`: the wrapped (`fmt.Errorf`)
DeleteUser error or the wrapped `waitUserDeleted` error. -/
inductive UserDeleteError where
  | deleteFailed (e : AwsErr)
  | waitFailed (e : AwsErr)
deriving DecidableEq, Repr

/-- Embedding of `func userDelete(ctx, conn, serverID, userName) error`: issues the
remote DeleteUser call (its result is the oracle `deleteResult`, `none`
meaning success); a ResourceNotFoundException from it is treated as
success and returned as nil immediately; any other delete error is
wrapped and returned; otherwise `waitUserDeleted` runs (oracle
`waitResult`) and its error, if any, is wrapped and returned. The Boolean
component records whether the wait step was invoked. -/
def userDelete (deleteResult waitResult : Option AwsErr) :
    Option UserDeleteError × Bool :=
  if errCodeEquals deleteResult errCodeResourceNotFoundException then (none, false)
  else
    match deleteResult with
    | some e => (some (UserDeleteError.deleteFailed e), false)
    | none =>
      match waitResult with
      | some e => (some (UserDeleteError.waitFailed e), true)
      | none => (none, true)

end transfer

namespace waf

theorem joinSt_pushOp (n : Nat) (st : DiffState) (op : IPSetUpdate) :
    joinSt (pushOp n st op) = joinSt st ++ [op] := by
  unfold pushOp joinSt
  by_cases h : st.2.length = n <;> simp [h]

theorem oldPass_eq_ops (n : Nat) :
    ∀ (oldD newD : List IPSetDescriptor) (st : DiffState),
      (oldPass n oldD newD st).1 = (oldPassOps oldD newD).1 ∧
      joinSt (oldPass n oldD newD st).2 = joinSt st ++ (oldPassOps oldD newD).2
  | [], newD, st => by simp [oldPass, oldPassOps]
  | od :: rest, newD, st => by
    unfold oldPass oldPassOps
    cases h : sliceContainsMap newD od with
    | some idx =>
      simpa using oldPass_eq_ops n rest (newD.eraseIdx idx) st
    | none =>
      have ih := oldPass_eq_ops n rest newD (pushOp n st ⟨ChangeAction.delete, od⟩)
      simpa [joinSt_pushOp] using ih

theorem joinSt_newPass (n : Nat) :
    ∀ (l : List IPSetDescriptor) (st : DiffState),
      joinSt (newPass n l st) =
        joinSt st ++ l.map (fun d => ⟨ChangeAction.insert, d⟩)
  | [], st => by simp [newPass]
  | nd :: rest, st => by
    unfold newPass
    simpa [joinSt_pushOp] using joinSt_newPass n rest (pushOp n st ⟨ChangeAction.insert, nd⟩)

/-- The flattened operation stream of the diff: the Delete operations of
the first loop followed by an Insert for every descriptor surviving the
working copy of the new list, independent of the batch limit. -/
theorem diffAux_join (n : Nat) (oldD newD : List IPSetDescriptor) :
    (diffAux n oldD newD).flatten =
      (oldPassOps oldD newD).2 ++
        (oldPassOps oldD newD).1.map (fun d => ⟨ChangeAction.insert, d⟩) := by
  unfold diffAux
  have h1 := oldPass_eq_ops n oldD newD ([], [])
  have h2 := joinSt_newPass n (oldPass n oldD newD ([], [])).1 (oldPass n oldD newD ([], [])).2
  have : (newPass n (oldPass n oldD newD ([], [])).1 (oldPass n oldD newD ([], [])).2).1.flatten ++
      (newPass n (oldPass n oldD newD ([], [])).1 (oldPass n oldD newD ([], [])).2).2 =
      joinSt (newPass n (oldPass n oldD newD ([], [])).1 (oldPass n oldD newD ([], [])).2) := rfl
  simp only [List.flatten_append, List.flatten_cons, List.flatten_nil, List.append_nil]
  rw [this, h2, h1.1]
  rw [h1.2]
  simp [joinSt]

/-! ### First-match structure of `sliceContainsMap` -/

theorem sliceContainsMap_eq_none {l : List IPSetDescriptor} {m : IPSetDescriptor} :
    sliceContainsMap l m = none ↔ m ∉ l := by
  induction l with
  | nil => simp [sliceContainsMap]
  | cons x xs ih =>
    unfold sliceContainsMap
    by_cases hx : x = m
    · simp [hx]
    · have hmap : (sliceContainsMap xs m).map (fun i => i + 1) = none ↔
          sliceContainsMap xs m = none := by
        cases sliceContainsMap xs m <;> simp
      rw [if_neg hx, hmap, ih]
      simp only [List.mem_cons, not_or]
      exact ⟨fun hm => ⟨fun he => hx he.symm, hm⟩, fun hm => hm.2⟩

theorem sliceContainsMap_first (l : List IPSetDescriptor) (m : IPSetDescriptor)
    (h : m ∈ l) :
    ∃ pre post, l = pre ++ m :: post ∧ m ∉ pre ∧
      sliceContainsMap l m = some pre.length ∧
      l.eraseIdx pre.length = pre ++ post := by
  induction l with
  | nil => cases h
  | cons x xs ih =>
    by_cases hx : x = m
    · subst hx
      exact ⟨[], xs, rfl, by simp, by simp [sliceContainsMap], rfl⟩
    · have hm : m ∈ xs := by
        rcases List.mem_cons.mp h with rfl | hm
        · exact absurd rfl hx
        · exact hm
      obtain ⟨pre, post, heq, hpre, hmap, herase⟩ := ih hm
      refine ⟨x :: pre, post, by simp [heq], ?_, ?_, ?_⟩
      · intro hc
        rcases List.mem_cons.mp hc with rfl | hc2
        · exact hx rfl
        · exact hpre hc2
      · simp [sliceContainsMap, if_neg hx, hmap]
      · simpa [List.eraseIdx_cons_succ] using congrArg (x :: ·) herase

/-! ### The no-op diff -/

theorem oldPass_self (n : Nat) :
    ∀ (S : List IPSetDescriptor) (st : DiffState), oldPass n S S st = ([], st)
  | [], _ => rfl
  | s :: rest, st => by
    have hfind : sliceContainsMap (s :: rest) s = some 0 := by
      simp [sliceContainsMap]
    have : (s :: rest).eraseIdx 0 = rest := rfl
    unfold oldPass
    rw [hfind]
    simpa [this] using oldPass_self n rest st

/-! ### Completeness of the emitted operation stream -/

theorem oldPassOps_filter :
    ∀ (oldD newD : List IPSetDescriptor), oldD.Nodup → newD.Nodup →
      (oldPassOps oldD newD).2 =
        (oldD.filter (fun d => decide (d ∉ newD))).map
          (fun d => ⟨ChangeAction.delete, d⟩) ∧
      (oldPassOps oldD newD).1 = newD.filter (fun d => decide (d ∉ oldD))
  | [], newD, _, _ => by simp [oldPassOps]
  | od :: rest, newD, ho, hn => by
    have hod : od ∉ rest := (List.nodup_cons.mp ho).1
    have ho' : rest.Nodup := (List.nodup_cons.mp ho).2
    by_cases hmem : od ∈ newD
    · obtain ⟨pre, post, heq, hpre, hmap, herase⟩ := sliceContainsMap_first newD od hmem
      subst heq
      have hnodup : (pre ++ post).Nodup :=
        hn.sublist (List.Sublist.append_left (List.sublist_cons_self od post) pre)
      have hodpost : od ∉ post := by
        have := (List.nodup_append.mp hn).2.1
        exact (List.nodup_cons.mp this).1
      have step : oldPassOps (od :: rest) (pre ++ od :: post) =
          oldPassOps rest ((pre ++ od :: post).eraseIdx pre.length) := by
        conv_lhs => rw [oldPassOps]
        rw [hmap]
      rw [step, herase]
      have ih := oldPassOps_filter rest (pre ++ post) ho' hnodup
      constructor
      · rw [ih.1]
        have hfcons : (od :: rest).filter (fun d => decide (d ∉ pre ++ od :: post)) =
            rest.filter (fun d => decide (d ∉ pre ++ od :: post)) := by
          simp [List.filter_cons, hmem]
        rw [hfcons]
        have : rest.filter (fun d => decide (d ∉ pre ++ od :: post)) =
            rest.filter (fun d => decide (d ∉ pre ++ post)) := by
          apply List.filter_congr
          intro d hd
          have hne : d ≠ od := fun h => hod (h ▸ hd)
          apply decide_eq_decide.mpr
          simp [List.mem_append, List.mem_cons, hne]
        rw [this]
      · rw [ih.2]
        have hfilter : ∀ (l : List IPSetDescriptor), od ∉ l →
            l.filter (fun d => decide (d ∉ od :: rest)) =
              l.filter (fun d => decide (d ∉ rest)) := by
          intro l hl
          apply List.filter_congr
          intro d hd
          have hne : d ≠ od := fun h => hl (h ▸ hd)
          apply decide_eq_decide.mpr
          simp [List.mem_cons, hne]
        have hmid : (od :: post).filter (fun d => decide (d ∉ od :: rest)) =
            post.filter (fun d => decide (d ∉ od :: rest)) :=
          List.filter_cons_of_neg (by simp)
        rw [List.filter_append pre (od :: post), hmid, hfilter pre hpre,
          hfilter post hodpost, ← List.filter_append]
    · have hmap : sliceContainsMap newD od = none := sliceContainsMap_eq_none.mpr hmem
      have step : oldPassOps (od :: rest) newD =
          ((oldPassOps rest newD).1,
            ⟨ChangeAction.delete, od⟩ :: (oldPassOps rest newD).2) := by
        conv_lhs => rw [oldPassOps]
        rw [hmap]
      rw [step]
      have ih := oldPassOps_filter rest newD ho' hn
      constructor
      · rw [List.filter_cons_of_pos (by simpa using hmem), List.map_cons, ih.1]
      · rw [ih.2]
        apply List.filter_congr
        intro d hd
        have hne : d ≠ od := fun h => hmem (h ▸ hd)
        apply decide_eq_decide.mpr
        simp [List.mem_cons, hne]

/-- C1: completeness of the diff — for duplicate-free inputs, the
concatenation of all batches of `DiffIPSetDescriptors old new` is exactly
one Delete for each record of `old` absent from `new` followed by exactly
one Insert for each record of `new` absent from `old` (structural
equality), with no other operations and no duplicates. -/
theorem DiffIPSetDescriptors_completeness (oldD newD : List IPSetDescriptor)
    (ho : oldD.Nodup) (hn : newD.Nodup) :
    (DiffIPSetDescriptors oldD newD).flatten =
      (oldD.filter (fun d => decide (d ∉ newD))).map
        (fun d => ⟨ChangeAction.delete, d⟩) ++
      (newD.filter (fun d => decide (d ∉ oldD))).map
        (fun d => ⟨ChangeAction.insert, d⟩) := by
  have h := oldPassOps_filter oldD newD ho hn
  rw [DiffIPSetDescriptors, diffAux_join, h.1, h.2]

/-- Witness for C1 at a concrete input. -/
theorem DiffIPSetDescriptors_completeness_witness :
    (DiffIPSetDescriptors
        [⟨"IPV4", "1.2.3.0/24"⟩, ⟨"IPV4", "10.0.0.0/8"⟩]
        [⟨"IPV4", "10.0.0.0/8"⟩, ⟨"IPV4", "5.6.7.0/24"⟩]).flatten =
      (([⟨"IPV4", "1.2.3.0/24"⟩, ⟨"IPV4", "10.0.0.0/8"⟩] : List IPSetDescriptor).filter
          (fun d => decide (d ∉ [⟨"IPV4", "10.0.0.0/8"⟩, ⟨"IPV4", "5.6.7.0/24"⟩]))).map
        (fun d => ⟨ChangeAction.delete, d⟩) ++
      (([⟨"IPV4", "10.0.0.0/8"⟩, ⟨"IPV4", "5.6.7.0/24"⟩] : List IPSetDescriptor).filter
          (fun d => decide (d ∉ [⟨"IPV4", "1.2.3.0/24"⟩, ⟨"IPV4", "10.0.0.0/8"⟩]))).map
        (fun d => ⟨ChangeAction.insert, d⟩) :=
  DiffIPSetDescriptors_completeness
    [⟨"IPV4", "1.2.3.0/24"⟩, ⟨"IPV4", "10.0.0.0/8"⟩]
    [⟨"IPV4", "10.0.0.0/8"⟩, ⟨"IPV4", "5.6.7.0/24"⟩] (by decide) (by decide)

/-! ### Ordering: deletes before inserts -/

theorem oldPassOps_all_delete :
    ∀ (oldD newD : List IPSetDescriptor),
      ∀ op ∈ (oldPassOps oldD newD).2, op.action = ChangeAction.delete
  | [], newD => by simp [oldPassOps]
  | od :: rest, newD => by
    intro op hop
    cases h : sliceContainsMap newD od with
    | some idx =>
      have step : oldPassOps (od :: rest) newD = oldPassOps rest (newD.eraseIdx idx) := by
        conv_lhs => rw [oldPassOps]
        rw [h]
      rw [step] at hop
      exact oldPassOps_all_delete rest (newD.eraseIdx idx) op hop
    | none =>
      have step : oldPassOps (od :: rest) newD =
          ((oldPassOps rest newD).1,
            ⟨ChangeAction.delete, od⟩ :: (oldPassOps rest newD).2) := by
        conv_lhs => rw [oldPassOps]
        rw [h]
      rw [step] at hop
      rcases List.mem_cons.mp hop with rfl | hop2
      · rfl
      · exact oldPassOps_all_delete rest newD op hop2

theorem getElem_append_cases {α : Type _} {A B : List α} {k : Nat}
    (hk : k < (A ++ B).length) :
    (k < A.length ∧ (A ++ B)[k] ∈ A) ∨ (A.length ≤ k ∧ (A ++ B)[k] ∈ B) := by
  by_cases h : k < A.length
  · left
    refine ⟨h, ?_⟩
    rw [List.getElem_append_left h]
    exact List.getElem_mem h
  · right
    refine ⟨by omega, ?_⟩
    rw [List.getElem_append_right (by omega)]
    exact List.getElem_mem (by simp only [List.length_append] at hk; omega)

/-- C3: ordering — in the flattened operation sequence of
`DiffIPSetDescriptors` (all batches concatenated in order), every Delete
operation precedes every Insert operation. -/
theorem DiffIPSetDescriptors_deletes_before_inserts
    (oldD newD : List IPSetDescriptor) (i j : Nat)
    (hi : i < (DiffIPSetDescriptors oldD newD).flatten.length)
    (hj : j < (DiffIPSetDescriptors oldD newD).flatten.length)
    (hdel : ((DiffIPSetDescriptors oldD newD).flatten[i]).action = ChangeAction.delete)
    (hins : ((DiffIPSetDescriptors oldD newD).flatten[j]).action = ChangeAction.insert) :
    i < j := by
  have hsplit : (DiffIPSetDescriptors oldD newD).flatten =
      (oldPassOps oldD newD).2 ++
        (oldPassOps oldD newD).1.map (fun d => ⟨ChangeAction.insert, d⟩) :=
    diffAux_join ipSetUpdatesLimit oldD newD
  have hAdel : ∀ op ∈ (oldPassOps oldD newD).2, op.action = ChangeAction.delete :=
    oldPassOps_all_delete oldD newD
  have hBins : ∀ op ∈ (oldPassOps oldD newD).1.map
      (fun d => (⟨ChangeAction.insert, d⟩ : IPSetUpdate)),
      op.action = ChangeAction.insert := by
    intro op hop
    obtain ⟨d, _, rfl⟩ := List.mem_map.mp hop
    rfl
  have hi' : i < ((oldPassOps oldD newD).2 ++
      (oldPassOps oldD newD).1.map
        (fun d => (⟨ChangeAction.insert, d⟩ : IPSetUpdate))).length :=
    hsplit ▸ hi
  have hj' : j < ((oldPassOps oldD newD).2 ++
      (oldPassOps oldD newD).1.map
        (fun d => (⟨ChangeAction.insert, d⟩ : IPSetUpdate))).length :=
    hsplit ▸ hj
  have hdel' := hdel
  have hins' := hins
  rw [List.getElem_of_eq hsplit hi] at hdel'
  rw [List.getElem_of_eq hsplit hj] at hins'
  rcases getElem_append_cases hi' with ⟨hilt, _⟩ | ⟨_, himem⟩
  · rcases getElem_append_cases hj' with ⟨_, hjmem⟩ | ⟨hjge, _⟩
    · exact absurd (hAdel _ hjmem) (by rw [hins']; intro hc; cases hc)
    · omega
  · exact absurd (hBins _ himem) (by rw [hdel']; intro hc; cases hc)

/-- Witness for C3 at a concrete input: the flattened sequence is
`[Delete, Insert]` and the Delete at index 0 precedes the Insert at 1. -/
theorem DiffIPSetDescriptors_deletes_before_inserts_witness : (0 : Nat) < 1 :=
  DiffIPSetDescriptors_deletes_before_inserts
    [⟨"IPV4", "1.2.3.0/24"⟩] [⟨"IPV4", "5.6.7.0/24"⟩] 0 1
    (by decide) (by decide) (by decide) (by decide)

/-- C4: no-op diff — for every list `S`, `DiffIPSetDescriptors S S`
returns exactly one batch, and that batch is empty. -/
theorem DiffIPSetDescriptors_self_diff (S : List IPSetDescriptor) :
    DiffIPSetDescriptors S S = [[]] := by
  simp [DiffIPSetDescriptors, diffAux, oldPass_self, newPass]

/-- C7: first-available duplicate matching — while processing an old
record `od`, if a structurally equal record remains in the working copy
of the new list, the first loop of `DiffIPSetDescriptors` removes exactly the
first such occurrence (the one with no equal record before it) from the
working copy and emits no operation for `od`: the batching state `st` is
passed through unchanged and the loop continues on the shortened copy, so
each old occurrence consumes at most one new occurrence and duplicates
are not globally deduplicated. -/
theorem oldPass_first_available_match (n : Nat) (od : IPSetDescriptor)
    (rest newD : List IPSetDescriptor) (st : DiffState) (h : od ∈ newD) :
    ∃ pre post, newD = pre ++ od :: post ∧ od ∉ pre ∧
      oldPass n (od :: rest) newD st = oldPass n rest (pre ++ post) st := by
  obtain ⟨pre, post, heq, hpre, hmap, herase⟩ := sliceContainsMap_first newD od h
  refine ⟨pre, post, heq, hpre, ?_⟩
  have step : oldPass n (od :: rest) newD st =
      match sliceContainsMap newD od with
      | some idx => oldPass n rest (newD.eraseIdx idx) st
      | none => oldPass n rest newD (pushOp n st ⟨ChangeAction.delete, od⟩) := rfl
  rw [step, hmap]
  show oldPass n rest (newD.eraseIdx pre.length) st = oldPass n rest (pre ++ post) st
  rw [herase]

theorem diffAux_eq_finalSt (n : Nat) (oldD newD : List IPSetDescriptor) :
    diffAux n oldD newD = (finalSt n oldD newD).1 ++ [(finalSt n oldD newD).2] := rfl

theorem batchInv_pushOp {n : Nat} (hn : 0 < n) {st : DiffState} (op : IPSetUpdate)
    (h : BatchInv n st) : BatchInv n (pushOp n st op) := by
  obtain ⟨h1, h2, h3⟩ := h
  unfold pushOp BatchInv
  by_cases hc : st.2.length = n
  · simp only [if_pos hc]
    refine ⟨?_, by simpa using hn, by simp⟩
    intro b hb
    rcases List.mem_append.mp hb with hb | hb
    · exact h1 b hb
    · rw [List.mem_singleton.mp hb]
      exact hc
  · simp only [if_neg hc]
    refine ⟨h1, ?_, by simp⟩
    simp only [List.length_append, List.length_singleton]
    omega

theorem pushOp_ne_nil {n : Nat} (st : DiffState) (op : IPSetUpdate) :
    (pushOp n st op).2 ≠ [] := by
  unfold pushOp
  by_cases hc : st.2.length = n <;> simp [hc]

theorem batchInv_oldPass {n : Nat} (hn : 0 < n) :
    ∀ (oldD newD : List IPSetDescriptor) (st : DiffState),
      BatchInv n st → BatchInv n (oldPass n oldD newD st).2
  | [], _, _, h => h
  | od :: rest, newD, st, h => by
    unfold oldPass
    cases hm : sliceContainsMap newD od with
    | some idx => exact batchInv_oldPass hn rest (newD.eraseIdx idx) st h
    | none =>
      exact batchInv_oldPass hn rest newD _
        (batchInv_pushOp hn ⟨ChangeAction.delete, od⟩ h)

theorem batchInv_newPass {n : Nat} (hn : 0 < n) :
    ∀ (l : List IPSetDescriptor) (st : DiffState),
      BatchInv n st → BatchInv n (newPass n l st)
  | [], _, h => h
  | nd :: rest, _, h =>
    batchInv_newPass hn rest _ (batchInv_pushOp hn ⟨ChangeAction.insert, nd⟩ h)

theorem batchInv_finalSt {n : Nat} (hn : 0 < n) (oldD newD : List IPSetDescriptor) :
    BatchInv n (finalSt n oldD newD) :=
  batchInv_newPass hn _ _
    (batchInv_oldPass hn oldD newD ([], []) ⟨by simp, by simp, fun _ => rfl⟩)

/-- C2: batch size bound — in every plan returned by
`DiffIPSetDescriptors`, every batch except the last contains exactly
`ipSetUpdatesLimit = 1000` operations, and the last batch contains
between 0 and 1000 operations. -/
theorem DiffIPSetDescriptors_batch_size_bound (oldD newD : List IPSetDescriptor) :
    (∀ b ∈ (DiffIPSetDescriptors oldD newD).dropLast, b.length = ipSetUpdatesLimit) ∧
    ∀ b ∈ DiffIPSetDescriptors oldD newD, b.length ≤ ipSetUpdatesLimit := by
  have hinv := batchInv_finalSt (n := ipSetUpdatesLimit) (by norm_num [ipSetUpdatesLimit])
    oldD newD
  have heq : DiffIPSetDescriptors oldD newD =
      (finalSt ipSetUpdatesLimit oldD newD).1 ++ [(finalSt ipSetUpdatesLimit oldD newD).2] :=
    rfl
  constructor
  · rw [heq, List.dropLast_concat]
    exact hinv.1
  · intro b hb
    rw [heq] at hb
    rcases List.mem_append.mp hb with hb | hb
    · exact le_of_eq (hinv.1 b hb)
    · rw [List.mem_singleton.mp hb]
      exact hinv.2.1

theorem lenSt_pushOp (n : Nat) (st : DiffState) (op : IPSetUpdate) :
    lenSt (pushOp n st op) = pushLen n (lenSt st) := by
  unfold pushOp pushLen lenSt
  by_cases hc : st.2.length = n <;> simp [hc]

theorem lenSt_newPass (n : Nat) :
    ∀ (l : List IPSetDescriptor) (st : DiffState),
      lenSt (newPass n l st) = iterPushLen n l.length (lenSt st)
  | [], _ => rfl
  | nd :: rest, st => by
    show lenSt (newPass n rest (pushOp n st ⟨ChangeAction.insert, nd⟩)) =
      iterPushLen n (rest.length + 1) (lenSt st)
    rw [lenSt_newPass n rest _, lenSt_pushOp]
    rfl

theorem iterPushLen_succ_right (n : Nat) :
    ∀ (k : Nat) (p : List Nat × Nat),
      iterPushLen n (k + 1) p = pushLen n (iterPushLen n k p)
  | 0, _ => rfl
  | k + 1, p => by
    show iterPushLen n (k + 1) (pushLen n p) = pushLen n (iterPushLen n (k + 1) p)
    rw [iterPushLen_succ_right n k (pushLen n p)]
    rfl

/-- Closed form of the length simulation at limit 1000, from the empty
start state. -/
theorem iterPushLen_closed_1000 :
    ∀ m : Nat, 1 ≤ m → iterPushLen 1000 m ([], 0) =
      (List.replicate ((m - 1) / 1000) 1000, (m - 1) % 1000 + 1)
  | 1, _ => by decide
  | m + 2, _ => by
    have ih := iterPushLen_closed_1000 (m + 1) (by omega)
    rw [iterPushLen_succ_right, ih]
    unfold pushLen
    by_cases hr : (m + 1 - 1) % 1000 + 1 = 1000
    · rw [if_pos hr]
      have h1 : (m + 2 - 1) / 1000 = (m + 1 - 1) / 1000 + 1 := by omega
      have h2 : (m + 2 - 1) % 1000 + 1 = 1 := by omega
      rw [h1, h2, List.replicate_succ', hr]
    · rw [if_neg hr]
      have h1 : (m + 2 - 1) / 1000 = (m + 1 - 1) / 1000 := by omega
      have h2 : (m + 2 - 1) % 1000 + 1 = (m + 1 - 1) % 1000 + 1 + 1 := by omega
      rw [h1, h2]

theorem exampleRecord_injective : Function.Injective exampleRecord := by
  intro a b h
  have hv : String.mk (List.replicate a 'a') = String.mk (List.replicate b 'a') :=
    congrArg IPSetDescriptor.value h
  injection hv with hd
  have := congrArg List.length hd
  simpa using this

theorem example2500_nodup : example2500.Nodup :=
  List.Nodup.map exampleRecord_injective (List.nodup_range 2500)

theorem flatten_length_uniform (n : Nat) :
    ∀ (L : List (List IPSetUpdate)), (∀ b ∈ L, b.length = n) →
      L.flatten.length = n * L.length
  | [], _ => by simp
  | b :: tl, h => by
    simp only [List.flatten_cons, List.length_append, List.length_cons]
    rw [h b (by simp), flatten_length_uniform n tl (fun x hx => h x (by simp [hx]))]
    ring

theorem flatten_diff_nil_left (newD : List IPSetDescriptor) :
    (DiffIPSetDescriptors [] newD).flatten =
      newD.map (fun d => ⟨ChangeAction.insert, d⟩) := by
  rw [DiffIPSetDescriptors, diffAux_join]
  simp [oldPassOps]

theorem example1000_flatten_length :
    (DiffIPSetDescriptors [] example1000).flatten.length = 1000 := by
  rw [flatten_diff_nil_left]
  simp [example1000]

theorem lenSt_finalSt_nil_left (newD : List IPSetDescriptor) :
    lenSt (finalSt ipSetUpdatesLimit [] newD) =
      iterPushLen 1000 newD.length ([], 0) := by
  have h0 : finalSt ipSetUpdatesLimit [] newD =
      newPass ipSetUpdatesLimit newD ([], []) := rfl
  rw [h0, lenSt_newPass]
  rfl

theorem example2500_map_length :
    (DiffIPSetDescriptors [] example2500).map (fun b => b.length) = [1000, 1000, 500] := by
  have hlen : example2500.length = 2500 := by simp [example2500]
  have hfin : lenSt (finalSt ipSetUpdatesLimit [] example2500) =
      (List.replicate 2 1000, 500) := by
    rw [lenSt_finalSt_nil_left, hlen, iterPushLen_closed_1000 2500 (by norm_num)]
  have heq : DiffIPSetDescriptors [] example2500 =
      (finalSt ipSetUpdatesLimit [] example2500).1 ++
        [(finalSt ipSetUpdatesLimit [] example2500).2] :=
    diffAux_eq_finalSt ipSetUpdatesLimit [] example2500
  rw [heq, List.map_append]
  simp only [lenSt, Prod.mk.injEq] at hfin
  obtain ⟨hc1, hc2⟩ := hfin
  rw [show ((finalSt ipSetUpdatesLimit [] example2500).1.map fun b => b.length) =
      (finalSt ipSetUpdatesLimit [] example2500).1.map List.length from rfl, hc1]
  simp only [List.map_cons, List.map_nil, hc2]
  rfl

theorem example1000_map_length :
    (DiffIPSetDescriptors [] example1000).map (fun b => b.length) = [1000] := by
  have hlen : example1000.length = 1000 := by simp [example1000]
  have hfin : lenSt (finalSt ipSetUpdatesLimit [] example1000) = ([], 1000) := by
    rw [lenSt_finalSt_nil_left, hlen, iterPushLen_closed_1000 1000 (by norm_num)]
    all_goals norm_num
  have heq : DiffIPSetDescriptors [] example1000 =
      (finalSt ipSetUpdatesLimit [] example1000).1 ++
        [(finalSt ipSetUpdatesLimit [] example1000).2] :=
    diffAux_eq_finalSt ipSetUpdatesLimit [] example1000
  rw [heq, List.map_append]
  simp only [lenSt, Prod.mk.injEq] at hfin
  obtain ⟨hc1, hc2⟩ := hfin
  rw [show ((finalSt ipSetUpdatesLimit [] example1000).1.map fun b => b.length) =
      (finalSt ipSetUpdatesLimit [] example1000).1.map List.length from rfl, hc1]
  simp only [List.map_cons, List.map_nil, hc2]
  rfl

theorem count_ceil_arith (k r : Nat) (h1 : 1 ≤ r) (h2 : r ≤ 1000) :
    k + 1 = (1000 * k + r + 1000 - 1) / 1000 := by omega

theorem exact_mult_arith (k r : Nat) (h1 : 1 ≤ r) (h2 : r ≤ 1000)
    (h3 : (1000 * k + r) % 1000 = 0) : r = 1000 := by omega

theorem exact_count_arith (k : Nat) : k + 1 = (1000 * k + 1000) / 1000 := by omega

/-- C5: batch count — for every pair of input lists, the number of
non-empty batches of `DiffIPSetDescriptors` equals
`ceil(total / 1000)` where `total` is the flattened operation count; in
particular for `old = []` and `new` the 2500 pairwise distinct records of
`example2500`, the plan is 3 batches of sizes `[1000, 1000, 500]`. -/
theorem DiffIPSetDescriptors_batch_count (oldD newD : List IPSetDescriptor) :
    ((DiffIPSetDescriptors oldD newD).filter (fun b => !b.isEmpty)).length =
      ((DiffIPSetDescriptors oldD newD).flatten.length + ipSetUpdatesLimit - 1) /
        ipSetUpdatesLimit ∧
    (DiffIPSetDescriptors [] example2500).map (fun b => b.length) = [1000, 1000, 500] ∧
    example2500.Nodup ∧ example2500.length = 2500 := by
  refine ⟨?_, example2500_map_length, example2500_nodup, by simp [example2500]⟩
  have hinv := batchInv_finalSt (n := ipSetUpdatesLimit)
    (by norm_num [ipSetUpdatesLimit]) oldD newD
  have heq : DiffIPSetDescriptors oldD newD =
      (finalSt ipSetUpdatesLimit oldD newD).1 ++
        [(finalSt ipSetUpdatesLimit oldD newD).2] := rfl
  by_cases h2 : (finalSt ipSetUpdatesLimit oldD newD).2 = []
  · have h1 : (finalSt ipSetUpdatesLimit oldD newD).1 = [] := hinv.2.2 h2
    rw [heq, h1, h2]
    simp [ipSetUpdatesLimit]
  · have hfull : ∀ b ∈ (finalSt ipSetUpdatesLimit oldD newD).1,
        (!b.isEmpty) = true := by
      intro b hb
      have hlb := hinv.1 b hb
      cases b with
      | nil => simp [ipSetUpdatesLimit] at hlb
      | cons x xs => rfl
    have hflen : (finalSt ipSetUpdatesLimit oldD newD).1.flatten.length =
        ipSetUpdatesLimit * (finalSt ipSetUpdatesLimit oldD newD).1.length :=
      flatten_length_uniform ipSetUpdatesLimit _ hinv.1
    rw [heq]
    rw [List.filter_append, List.filter_eq_self.mpr hfull]
    have hl2 : ([(finalSt ipSetUpdatesLimit oldD newD).2].filter
        (fun b => !b.isEmpty)) = [(finalSt ipSetUpdatesLimit oldD newD).2] := by
      rw [List.filter_eq_self]
      intro b hb
      rw [List.mem_singleton.mp hb]
      cases hcase : (finalSt ipSetUpdatesLimit oldD newD).2 with
      | nil => exact absurd hcase h2
      | cons x xs => rfl
    rw [hl2]
    have hr1 : 1 ≤ (finalSt ipSetUpdatesLimit oldD newD).2.length :=
      List.length_pos.mpr h2
    have hr2 : (finalSt ipSetUpdatesLimit oldD newD).2.length ≤ ipSetUpdatesLimit :=
      hinv.2.1
    have htot : ((finalSt ipSetUpdatesLimit oldD newD).1 ++
        [(finalSt ipSetUpdatesLimit oldD newD).2]).flatten.length =
        ipSetUpdatesLimit * (finalSt ipSetUpdatesLimit oldD newD).1.length +
          (finalSt ipSetUpdatesLimit oldD newD).2.length := by
      rw [List.flatten_append, List.length_append, hflen]
      simp
    rw [htot, List.length_append, List.length_singleton]
    exact count_ceil_arith _ _ hr1 hr2

/-- C6 counterexample: with `old = []` and `new` 1000 distinct records the
total operation count is 1000, a positive exact multiple of the batch
limit, yet the returned plan is a single full batch and does not end with
an empty batch. -/
theorem DiffIPSetDescriptors_trailing_empty_counterexample :
    (DiffIPSetDescriptors [] example1000).flatten.length = 1000 ∧
    (1000 : Nat) % ipSetUpdatesLimit = 0 ∧ (0 : Nat) < 1000 ∧
    ¬ (DiffIPSetDescriptors [] example1000).getLast? =
        some ([] : List IPSetUpdate) := by
  refine ⟨example1000_flatten_length, by norm_num [ipSetUpdatesLimit], by norm_num, ?_⟩
  have hmap := example1000_map_length
  cases hp : DiffIPSetDescriptors [] example1000 with
  | nil => rw [hp] at hmap; simp at hmap
  | cons b tl =>
    cases tl with
    | cons b2 tl2 => rw [hp] at hmap; simp at hmap
    | nil =>
      rw [hp] at hmap
      simp only [List.map_cons, List.map_nil, List.cons.injEq, and_true] at hmap
      simp only [List.getLast?_singleton, Option.some.injEq]
      intro hc
      rw [hc] at hmap
      simp at hmap

/-- C6 as amended: when the total operation count is a positive exact
multiple of `ipSetUpdatesLimit`, `DiffIPSetDescriptors` does NOT append a
trailing empty batch — every batch of the plan, the last included, holds
exactly `ipSetUpdatesLimit` operations and the number of batches is
`total / ipSetUpdatesLimit`. -/
theorem DiffIPSetDescriptors_exact_multiple_full_batches
    (oldD newD : List IPSetDescriptor)
    (h1 : 0 < (DiffIPSetDescriptors oldD newD).flatten.length)
    (h2 : (DiffIPSetDescriptors oldD newD).flatten.length % ipSetUpdatesLimit = 0) :
    (∀ b ∈ DiffIPSetDescriptors oldD newD, b.length = ipSetUpdatesLimit) ∧
    (DiffIPSetDescriptors oldD newD).length =
      (DiffIPSetDescriptors oldD newD).flatten.length / ipSetUpdatesLimit := by
  have hinv := batchInv_finalSt (n := ipSetUpdatesLimit)
    (by norm_num [ipSetUpdatesLimit]) oldD newD
  have heq : DiffIPSetDescriptors oldD newD =
      (finalSt ipSetUpdatesLimit oldD newD).1 ++
        [(finalSt ipSetUpdatesLimit oldD newD).2] := rfl
  have hflen : (finalSt ipSetUpdatesLimit oldD newD).1.flatten.length =
      ipSetUpdatesLimit * (finalSt ipSetUpdatesLimit oldD newD).1.length :=
    flatten_length_uniform ipSetUpdatesLimit _ hinv.1
  have htot : (DiffIPSetDescriptors oldD newD).flatten.length =
      ipSetUpdatesLimit * (finalSt ipSetUpdatesLimit oldD newD).1.length +
        (finalSt ipSetUpdatesLimit oldD newD).2.length := by
    rw [heq, List.flatten_append, List.length_append, hflen]
    simp
  by_cases hnil : (finalSt ipSetUpdatesLimit oldD newD).2 = []
  · exfalso
    have h0 : (finalSt ipSetUpdatesLimit oldD newD).1 = [] := hinv.2.2 hnil
    rw [htot, h0, hnil] at h1
    simp at h1
  · have hr1 : 1 ≤ (finalSt ipSetUpdatesLimit oldD newD).2.length :=
      List.length_pos.mpr hnil
    have hr2 : (finalSt ipSetUpdatesLimit oldD newD).2.length ≤ ipSetUpdatesLimit :=
      hinv.2.1
    rw [htot] at h2 ⊢
    have hrfull : (finalSt ipSetUpdatesLimit oldD newD).2.length = ipSetUpdatesLimit :=
      exact_mult_arith _ _ hr1 hr2 h2
    constructor
    · intro b hb
      rw [heq] at hb
      rcases List.mem_append.mp hb with hb | hb
      · exact hinv.1 b hb
      · rw [List.mem_singleton.mp hb]
        exact hrfull
    · rw [heq, List.length_append, List.length_singleton, hrfull]
      exact exact_count_arith _

/-- Witness for the amended theorem of C6 at the 1000-record input. -/
theorem DiffIPSetDescriptors_exact_multiple_full_batches_witness :
    (∀ b ∈ DiffIPSetDescriptors [] example1000, b.length = ipSetUpdatesLimit) ∧
    (DiffIPSetDescriptors [] example1000).length =
      (DiffIPSetDescriptors [] example1000).flatten.length / ipSetUpdatesLimit :=
  DiffIPSetDescriptors_exact_multiple_full_batches [] example1000
    (by rw [example1000_flatten_length]; norm_num)
    (by rw [example1000_flatten_length]; norm_num [ipSetUpdatesLimit])

/-- Witness for C7 at a concrete input with duplicate records. -/
theorem oldPass_first_available_match_witness :
    ∃ pre post,
      ([⟨"IPV4", "10.0.0.0/8"⟩, ⟨"IPV4", "1.2.3.0/24"⟩, ⟨"IPV4", "1.2.3.0/24"⟩] :
          List IPSetDescriptor) = pre ++ ⟨"IPV4", "1.2.3.0/24"⟩ :: post ∧
      (⟨"IPV4", "1.2.3.0/24"⟩ : IPSetDescriptor) ∉ pre ∧
      oldPass 1000 [⟨"IPV4", "1.2.3.0/24"⟩]
          [⟨"IPV4", "10.0.0.0/8"⟩, ⟨"IPV4", "1.2.3.0/24"⟩, ⟨"IPV4", "1.2.3.0/24"⟩] ([], []) =
        oldPass 1000 [] (pre ++ post) ([], []) :=
  oldPass_first_available_match 1000 ⟨"IPV4", "1.2.3.0/24"⟩ []
    [⟨"IPV4", "10.0.0.0/8"⟩, ⟨"IPV4", "1.2.3.0/24"⟩, ⟨"IPV4", "1.2.3.0/24"⟩] ([], [])
    (by decide)

/-! ### The batch size is a fixed constant -/

/-- C8 counterexample: the differ run with batch size 0 — `diffAux`, the
source algorithm with the fixed constant as a parameter — does not reject
a non-positive batch size: it processes the old record and returns an
ordinary plan (here with a leading empty batch), with no error of any
kind. -/
theorem diffAux_batch_size_zero_no_reject :
    diffAux 0 [⟨"IPV4", "1.2.3.0/24"⟩] [] =
      [[], [⟨ChangeAction.delete, ⟨"IPV4", "1.2.3.0/24"⟩⟩]] := by decide

/-- C8 as amended: the differ exposes no batch-size argument and no error
path — `DiffIPSetDescriptors` always runs at the fixed constant
`ipSetUpdatesLimit = 1000`, which is positive, so a non-positive batch
size can never be supplied by a caller and no rejection is ever
performed. -/
theorem ipSetUpdatesLimit_fixed_positive :
    ipSetUpdatesLimit = 1000 ∧ 0 < ipSetUpdatesLimit ∧
    ∀ oldD newD : List IPSetDescriptor,
      DiffIPSetDescriptors oldD newD = diffAux ipSetUpdatesLimit oldD newD :=
  ⟨rfl, by norm_num [ipSetUpdatesLimit], fun _ _ => rfl⟩

theorem runBatches_ok {E : Type} (exec : List IPSetUpdate → Option E) :
    ∀ plan : List (List IPSetUpdate), (∀ b ∈ plan, exec b = none) →
      runBatches exec plan = (plan, plan, none)
  | [], _ => rfl
  | b :: rest, h => by
    have hb : exec b = none := h b (by simp)
    have ih := runBatches_ok exec rest (fun x hx => h x (by simp [hx]))
    simp [runBatches, hb, ih]

theorem runBatches_first_failure {E : Type} (exec : List IPSetUpdate → Option E) :
    ∀ (pre : List (List IPSetUpdate)) (b : List IPSetUpdate)
      (post : List (List IPSetUpdate)) (e : E),
      (∀ x ∈ pre, exec x = none) → exec b = some e →
      runBatches exec (pre ++ b :: post) = (pre ++ [b], pre, some e)
  | [], b, post, e, _, hb => by simp [runBatches, hb]
  | p :: pre, b, post, e, hpre, hb => by
    have hp : exec p = none := hpre p (by simp)
    have ih := runBatches_first_failure exec pre b post e
      (fun x hx => hpre x (by simp [hx])) hb
    simp [runBatches, hp, ih]

/-- C9: sequential execution with stop on first failure —
`updateIPSetDescriptors` submits the batches of `DiffIPSetDescriptors`
strictly in order, one remote call per batch. If the plan splits as
`pre ++ b :: post` where every batch of `pre` succeeds and `b` fails with
error `e`, then exactly `pre ++ [b]` is submitted (no batch after the
failing one), exactly the prefix `pre` is applied remotely — nothing is
rolled back — and the returned error is that of the first failing batch;
if every batch succeeds the whole plan is submitted and applied and no
error is returned. -/
theorem updateIPSetDescriptors_sequential_first_failure {E : Type}
    (exec : List IPSetUpdate → Option E) (oldD newD : List IPSetDescriptor) :
    (∀ (pre : List (List IPSetUpdate)) (b : List IPSetUpdate)
        (post : List (List IPSetUpdate)) (e : E),
      DiffIPSetDescriptors oldD newD = pre ++ b :: post →
      (∀ x ∈ pre, exec x = none) → exec b = some e →
      updateIPSetDescriptors exec oldD newD = (pre ++ [b], pre, some e)) ∧
    ((∀ b ∈ DiffIPSetDescriptors oldD newD, exec b = none) →
      updateIPSetDescriptors exec oldD newD =
        (DiffIPSetDescriptors oldD newD, DiffIPSetDescriptors oldD newD, none)) := by
  constructor
  · intro pre b post e hplan hpre hb
    rw [updateIPSetDescriptors, hplan]
    exact runBatches_first_failure exec pre b post e hpre hb
  · intro h
    rw [updateIPSetDescriptors]
    exact runBatches_ok exec _ h

/-- Witness for C9: a one-batch plan whose single batch fails with error
`7`; the batch is submitted, nothing is applied, the error is returned. -/
theorem updateIPSetDescriptors_sequential_first_failure_witness :
    updateIPSetDescriptors (fun _ => some (7 : Nat)) [⟨"IPV4", "1.2.3.0/24"⟩] [] =
      ([[⟨ChangeAction.delete, ⟨"IPV4", "1.2.3.0/24"⟩⟩]], [], some 7) :=
  (updateIPSetDescriptors_sequential_first_failure (fun _ => some (7 : Nat))
      [⟨"IPV4", "1.2.3.0/24"⟩] []).1
    [] [⟨ChangeAction.delete, ⟨"IPV4", "1.2.3.0/24"⟩⟩] [] 7
    (by decide) (by decide) rfl

end waf

namespace transfer

/-- C10: idempotent remote delete for Transfer users — `userDelete`
returns success (nil error) whenever the remote DeleteUser call fails
with ResourceNotFoundException, and in that case the wait-for-deletion
step is skipped; a delete failure with any other code is returned to the
caller (wrapped), also without waiting. -/
theorem userDelete_resource_not_found :
    (∀ w : Option AwsErr,
      userDelete (some ⟨errCodeResourceNotFoundException⟩) w = (none, false)) ∧
    (∀ (e : AwsErr) (w : Option AwsErr),
      e.code ≠ errCodeResourceNotFoundException →
      userDelete (some e) w = (some (UserDeleteError.deleteFailed e), false)) := by
  constructor
  · intro w
    rfl
  · intro e w h
    have hbeq : (e.code == errCodeResourceNotFoundException) = false := by
      cases hc : e.code == errCodeResourceNotFoundException with
      | false => rfl
      | true => exact absurd (by simpa using hc) h
    simp [userDelete, errCodeEquals, hbeq]

/-- Witness for C10 at concrete error values. -/
theorem userDelete_resource_not_found_witness :
    userDelete (some ⟨errCodeResourceNotFoundException⟩) (some ⟨"ThrottlingException"⟩) =
      (none, false) ∧
    userDelete (some ⟨"AccessDeniedException"⟩) none =
      (some (UserDeleteError.deleteFailed ⟨"AccessDeniedException"⟩), false) :=
  ⟨userDelete_resource_not_found.1 (some ⟨"ThrottlingException"⟩),
   userDelete_resource_not_found.2 ⟨"AccessDeniedException"⟩ none (by decide)⟩

end transfer
